import Mathlib

/-!
Verification development for the stablecoin-dashboard data pipeline.

The Python source is shallowly embedded as follows:
* numeric (float) values are modelled as exact rationals `ℚ`; `NaN`/null is
  modelled as `none : Option ℚ`;
* Python strings are Lean `String`s (lists of characters);
* pandas dataframes are lists of typed records; the sentinel dataframes
  produced by `create_error_dataframe` are modelled as constructors of a
  tagged result type;
* the network fetch inside the pipeline entry points is passed in as an
  explicit `Option (List PoolRecord)` argument (dependency injection of the
  value `fetch_defillama_yield_pools` would have produced);
* Python `f"{v:.df}"` fixed-point formatting is modelled by `renderFixed`,
  which rounds half-to-even (the rounding Python applies) and renders the
  decimal digits; Python `float(s)` on plain decimal literals is modelled by
  `parseDecimal` (scientific notation and underscore separators, which the
  repository never feeds to `float`, are not part of the model).
-/

/-! ### Characters and digit strings -/

/-- Character of a single decimal digit, mirroring how Python renders digits. -/
def digitChar (n : ℕ) : Char :=
  match n with
  | 0 => '0' | 1 => '1' | 2 => '2' | 3 => '3' | 4 => '4'
  | 5 => '5' | 6 => '6' | 7 => '7' | 8 => '8' | 9 => '9'
  | _ => '*'

/-- Decimal digit test on a character. -/
def isDigitCh (c : Char) : Bool := 48 ≤ c.toNat && c.toNat ≤ 57

/-- Numeric value of a digit character. -/
def digitVal (c : Char) : ℕ := c.toNat - 48

/-- Whitespace test, as used by Python `str.strip` and `float`. -/
def isSpaceCh (c : Char) : Bool :=
  c = ' ' || c = '\t' || c = '\n' || c = '\r' || c.toNat = 11 || c.toNat = 12

/-- Lowercasing of one ASCII character, as Python `str.lower` acts on the
characters this repository manipulates. -/
def toLowerChar (c : Char) : Char :=
  if 65 ≤ c.toNat && c.toNat ≤ 90 then Char.ofNat (c.toNat + 32) else c

/-- Uppercasing of one ASCII character, as Python `str.upper` acts on the
characters this repository manipulates. -/
def toUpperChar (c : Char) : Char :=
  if 97 ≤ c.toNat && c.toNat ≤ 122 then Char.ofNat (c.toNat - 32) else c

/-- Decimal digit characters of a natural number, most significant first. -/
def natToChars (n : ℕ) : List Char :=
  if _h : n < 10 then [digitChar n]
  else natToChars (n / 10) ++ [digitChar (n % 10)]
termination_by n
decreasing_by exact Nat.div_lt_self (by omega) (by omega)

/-- Value of a digit string, most significant first. -/
def digitsVal (cs : List Char) : ℕ :=
  cs.foldl (fun a c => a * 10 + digitVal c) 0

/-- All characters are decimal digits. -/
def allDigits (cs : List Char) : Bool := cs.all isDigitCh

theorem digitVal_digitChar {n : ℕ} (h : n < 10) : digitVal (digitChar n) = n := by
  interval_cases n <;> rfl

theorem isDigitCh_digitChar {n : ℕ} (h : n < 10) : isDigitCh (digitChar n) = true := by
  interval_cases n <;> rfl

theorem natToChars_ne_nil (n : ℕ) : natToChars n ≠ [] := by
  rw [natToChars]
  split
  · simp
  · simp

theorem allDigits_natToChars (n : ℕ) : allDigits (natToChars n) = true := by
  induction n using natToChars.induct with
  | case1 n h =>
    rw [natToChars]
    simp only [h, dite_true]
    simp [allDigits, isDigitCh_digitChar h]
  | case2 n h ih =>
    rw [natToChars]
    simp only [h, dite_false]
    simp only [allDigits, List.all_append] at ih ⊢
    simp [ih, isDigitCh_digitChar (Nat.mod_lt n (by omega))]

theorem digitsVal_append (l1 l2 : List Char) :
    digitsVal (l1 ++ l2) = l2.foldl (fun a c => a * 10 + digitVal c) (digitsVal l1) := by
  simp [digitsVal, List.foldl_append]

theorem digitsVal_natToChars (n : ℕ) : digitsVal (natToChars n) = n := by
  induction n using natToChars.induct with
  | case1 n h =>
    rw [natToChars]
    simp only [h, dite_true]
    simp [digitsVal, digitVal_digitChar h]
  | case2 n h ih =>
    rw [natToChars]
    simp only [h, dite_false]
    rw [digitsVal_append]
    simp only [List.foldl_cons, List.foldl_nil, ih]
    rw [digitVal_digitChar (Nat.mod_lt n (by omega))]
    omega

theorem length_natToChars_le {n d : ℕ} (hd : 1 ≤ d) (hn : n < 10 ^ d) :
    (natToChars n).length ≤ d := by
  induction n using natToChars.induct generalizing d with
  | case1 n h =>
    rw [natToChars]
    simp only [h, dite_true, List.length_singleton]
    omega
  | case2 n h ih =>
    rw [natToChars]
    simp only [h, dite_false, List.length_append, List.length_singleton]
    have hd2 : 2 ≤ d := by
      rcases Nat.lt_or_ge d 2 with hc | hc
      · interval_cases d
        simp at hn
        omega
      · exact hc
    have : n / 10 < 10 ^ (d - 1) := by
      have h10 : 10 ^ d = 10 ^ (d - 1) * 10 := by
        rw [← pow_succ]
        congr 1
        omega
      rw [h10] at hn
      exact Nat.div_lt_of_lt_mul (by omega)
    have := @ih (d - 1) (by omega) this
    omega

/-! ### Half-to-even rounding

Python rounds with round-half-to-even both in `round(x, n)` and in
`f"{x:.nf}"` formatting; `roundHE` is that rounding on exact rationals. -/

/-- Round a rational to the nearest integer, ties to the even integer. -/
def roundHE (q : ℚ) : ℤ :=
  if q - q.floor < 1/2 then q.floor
  else if 1/2 < q - q.floor then q.floor + 1
  else if q.floor % 2 = 0 then q.floor else q.floor + 1

theorem ratFloor_eq_intFloor (q : ℚ) : q.floor = ⌊q⌋ := by
  rw [Rat.floor_def, Rat.floor_def']

theorem roundHE_bound (q : ℚ) : |(roundHE q : ℚ) - q| ≤ 1/2 := by
  unfold roundHE
  have h1 : (⌊q⌋ : ℚ) ≤ q := Int.floor_le q
  have h2 : q < ⌊q⌋ + 1 := Int.lt_floor_add_one q
  rw [ratFloor_eq_intFloor]
  split_ifs with ha hb hc <;>
    (rw [abs_le]; push_cast; constructor <;> linarith)

theorem roundHE_intCast (n : ℤ) : roundHE (n : ℚ) = n := by
  unfold roundHE
  rw [ratFloor_eq_intFloor, Int.floor_intCast]
  have h0 : (n : ℚ) - n = 0 := by ring
  rw [h0]
  norm_num

theorem roundHE_mono {q r : ℚ} (h : q ≤ r) : roundHE q ≤ roundHE r := by
  unfold roundHE
  rw [ratFloor_eq_intFloor, ratFloor_eq_intFloor]
  have hf : ⌊q⌋ ≤ ⌊r⌋ := Int.floor_le_floor h
  rcases eq_or_lt_of_le hf with heq | hlt
  · have h1 : (⌊q⌋ : ℚ) = (⌊r⌋ : ℚ) := by exact_mod_cast heq
    have hqr : q - ⌊q⌋ ≤ r - ⌊r⌋ := by
      rw [← heq, h1]
      linarith
    split_ifs <;> first | omega | linarith
  · have hub : (if q - ⌊q⌋ < 1/2 then ⌊q⌋
        else if 1/2 < q - ⌊q⌋ then ⌊q⌋ + 1
        else if ⌊q⌋ % 2 = 0 then ⌊q⌋ else ⌊q⌋ + 1) ≤ ⌊q⌋ + 1 := by
      split_ifs <;> omega
    have hlb : (if r - ⌊r⌋ < 1/2 then ⌊r⌋
        else if 1/2 < r - ⌊r⌋ then ⌊r⌋ + 1
        else if ⌊r⌋ % 2 = 0 then ⌊r⌋ else ⌊r⌋ + 1) ≥ ⌊r⌋ := by
      split_ifs <;> omega
    omega

/-! ### Fixed-point decimal rendering and parsing -/

/-- Exactly `d` digit characters of a value `m < 10 ^ d`, zero-padded. -/
def padZeros (d m : ℕ) : List Char :=
  List.replicate (d - (natToChars m).length) '0' ++ natToChars m

/-- Fixed-point rendering of a rational with `d` decimal places, the model of
Python `f"{q:.df}"` (for `d = 0` Python emits no decimal point). -/
def renderFixed (q : ℚ) (d : ℕ) : List Char :=
  let n : ℤ := roundHE (q * 10 ^ d)
  let a : ℕ := n.natAbs
  let sgn : List Char := if n < 0 then ['-'] else []
  if d = 0 then sgn ++ natToChars a
  else sgn ++ natToChars (a / 10 ^ d) ++ '.' :: padZeros d (a % 10 ^ d)

/-- Split a character list at the first decimal point, if any. -/
def splitAtDot : List Char → List Char × Option (List Char)
  | [] => ([], none)
  | c :: rest =>
    if c = '.' then ([], some rest)
    else
      let p := splitAtDot rest
      (c :: p.1, p.2)

/-- Parse an unsigned decimal literal (digits, optionally with one decimal
point; at least one digit overall), the core of Python `float`. -/
def parseUnsignedDec (cs : List Char) : Option ℚ :=
  match splitAtDot cs with
  | (ip, none) =>
    if !ip.isEmpty && allDigits ip then some ((digitsVal ip : ℚ)) else none
  | (ip, some fp) =>
    if (!ip.isEmpty || !fp.isEmpty) && allDigits ip && allDigits fp then
      some ((digitsVal ip : ℚ) + (digitsVal fp : ℚ) / 10 ^ fp.length)
    else none

/-- Strip leading and trailing whitespace, the model of Python `str.strip`. -/
def stripChars (cs : List Char) : List Char :=
  ((cs.dropWhile isSpaceCh).reverse.dropWhile isSpaceCh).reverse

/-- Model of Python `float` applied to a plain decimal string: optional sign,
digits with an optional decimal point, surrounding whitespace allowed;
`none` models the `ValueError` path. -/
def parseDecimal (csRaw : List Char) : Option ℚ :=
  match stripChars csRaw with
  | [] => none
  | c :: rest =>
    if c = '-' then (parseUnsignedDec rest).map (fun x => -x)
    else if c = '+' then parseUnsignedDec rest
    else parseUnsignedDec (c :: rest)

/-! ### Correctness of the decimal render/parse pair -/

theorem digitsVal_replicate_zero (k : ℕ) (l : List Char) :
    digitsVal (List.replicate k '0' ++ l) = digitsVal l := by
  induction k with
  | zero => simp
  | succ k ih =>
    rw [List.replicate_succ]
    simpa [digitsVal, digitVal] using ih

theorem digitsVal_padZeros (d m : ℕ) : digitsVal (padZeros d m) = m := by
  rw [padZeros, digitsVal_replicate_zero, digitsVal_natToChars]

theorem allDigits_padZeros (d m : ℕ) : allDigits (padZeros d m) = true := by
  rw [padZeros]
  simp only [allDigits, List.all_append, Bool.and_eq_true]
  refine ⟨?_, allDigits_natToChars m⟩
  simp only [List.all_eq_true]
  intro c hc
  rw [List.eq_of_mem_replicate hc]
  rfl

theorem length_padZeros {d m : ℕ} (hd : 1 ≤ d) (hm : m < 10 ^ d) :
    (padZeros d m).length = d := by
  rw [padZeros]
  have := length_natToChars_le hd hm
  simp only [List.length_append, List.length_replicate]
  omega

theorem isDigitCh_spec {c : Char} (h : isDigitCh c = true) :
    48 ≤ c.toNat ∧ c.toNat ≤ 57 := by
  simp only [isDigitCh, Bool.and_eq_true, decide_eq_true_eq] at h
  exact_mod_cast h

theorem splitAtDot_no_dot {cs : List Char} (h : ∀ c ∈ cs, c ≠ '.') :
    splitAtDot cs = (cs, none) := by
  induction cs with
  | nil => rfl
  | cons c rest ih =>
    rw [splitAtDot]
    have hc : c ≠ '.' := h c (by simp)
    simp only [hc, if_false]
    rw [ih (fun x hx => h x (by simp [hx]))]

theorem splitAtDot_append_dot {l1 : List Char} (l2 : List Char)
    (h : ∀ c ∈ l1, c ≠ '.') :
    splitAtDot (l1 ++ '.' :: l2) = (l1, some l2) := by
  induction l1 with
  | nil => simp [splitAtDot]
  | cons c rest ih =>
    rw [List.cons_append, splitAtDot]
    have hc : c ≠ '.' := h c (by simp)
    simp only [hc, if_false]
    rw [ih (fun x hx => h x (by simp [hx]))]

theorem allDigits_no_dot {cs : List Char} (h : allDigits cs = true) :
    ∀ c ∈ cs, c ≠ '.' := by
  intro c hc
  simp only [allDigits, List.all_eq_true] at h
  have h2 := isDigitCh_spec (h c hc)
  intro heq
  rw [heq] at h2
  have h3 : ('.' : Char).toNat = 46 := rfl
  omega

theorem parseUnsignedDec_digits {cs : List Char} (hne : cs ≠ [])
    (hd : allDigits cs = true) :
    parseUnsignedDec cs = some ((digitsVal cs : ℚ)) := by
  rw [parseUnsignedDec, splitAtDot_no_dot (allDigits_no_dot hd)]
  simp [hne, hd]

theorem parseUnsignedDec_body (a : ℕ) {d : ℕ} (hd : 1 ≤ d) :
    parseUnsignedDec (natToChars (a / 10 ^ d) ++ '.' :: padZeros d (a % 10 ^ d)) =
      some ((a : ℚ) / 10 ^ d) := by
  rw [parseUnsignedDec,
    splitAtDot_append_dot _ (allDigits_no_dot (allDigits_natToChars _))]
  simp only [allDigits_natToChars, allDigits_padZeros, Bool.and_true,
    List.isEmpty_eq_true, natToChars_ne_nil, not_false_eq_true,
    Bool.not_eq_eq_eq_not, Bool.not_true, decide_eq_false_iff_not, decide_not,
    if_true]
  rw [if_pos]
  · congr 1
    rw [digitsVal_natToChars, digitsVal_padZeros,
      length_padZeros hd (Nat.mod_lt _ (by positivity))]
    have hsplit : a / 10 ^ d * 10 ^ d + a % 10 ^ d = a := Nat.div_add_mod' a (10 ^ d)
    field_simp
    exact_mod_cast hsplit
  · simp [natToChars_ne_nil]

/-- Characters a fixed-point rendering can contain: digits, the decimal
point, and the minus sign. -/
def plainNumCh (c : Char) : Bool := isDigitCh c || c = '.' || c = '-'

theorem plainNumCh_toNat {c : Char} (h : plainNumCh c = true) :
    c.toNat = 45 ∨ c.toNat = 46 ∨ (48 ≤ c.toNat ∧ c.toNat ≤ 57) := by
  simp only [plainNumCh, Bool.or_eq_true, decide_eq_true_eq] at h
  rcases h with (h | h) | h
  · right; right; exact isDigitCh_spec h
  · rw [h]; right; left; rfl
  · rw [h]; left; rfl

theorem isSpaceCh_spec {c : Char} (h : isSpaceCh c = true) :
    c.toNat = 32 ∨ c.toNat = 9 ∨ c.toNat = 10 ∨ c.toNat = 13 ∨
      c.toNat = 11 ∨ c.toNat = 12 := by
  simp only [isSpaceCh, Bool.or_eq_true, decide_eq_true_eq] at h
  rcases h with ((((h | h) | h) | h) | h) | h
  · rw [h]; left; rfl
  · rw [h]; right; left; rfl
  · rw [h]; right; right; left; rfl
  · rw [h]; right; right; right; left; rfl
  · omega
  · omega

theorem plainNumCh_not_space {c : Char} (h : plainNumCh c = true) :
    isSpaceCh c = false := by
  cases hs : isSpaceCh c with
  | false => rfl
  | true =>
    have h1 := plainNumCh_toNat h
    have h2 := isSpaceCh_spec hs
    omega

theorem dropWhile_of_none {p : Char → Bool} {cs : List Char}
    (h : ∀ c ∈ cs, p c = false) : cs.dropWhile p = cs := by
  cases cs with
  | nil => rfl
  | cons c rest =>
    rw [List.dropWhile_cons, h c (by simp)]
    simp

theorem stripChars_of_no_space {cs : List Char}
    (h : ∀ c ∈ cs, isSpaceCh c = false) : stripChars cs = cs := by
  rw [stripChars, dropWhile_of_none h, dropWhile_of_none, List.reverse_reverse]
  intro c hc
  exact h c (by simpa using hc)

theorem mem_natToChars_digit {n : ℕ} {c : Char} (hc : c ∈ natToChars n) :
    isDigitCh c = true := by
  have := allDigits_natToChars n
  simp only [allDigits, List.all_eq_true] at this
  exact this c hc

theorem mem_padZeros_digit {d m : ℕ} {c : Char} (hc : c ∈ padZeros d m) :
    isDigitCh c = true := by
  have := allDigits_padZeros d m
  simp only [allDigits, List.all_eq_true] at this
  exact this c hc


theorem renderFixed_plain {q : ℚ} {d : ℕ} :
    ∀ c ∈ renderFixed q d, plainNumCh c = true := by
  intro c hc
  rw [renderFixed] at hc
  simp only [plainNumCh, Bool.or_eq_true, decide_eq_true_eq]
  split at hc <;>
    simp only [List.mem_append, List.mem_cons, List.mem_singleton] at hc
  · rcases hc with hc | hc
    · split at hc
      · simp only [List.mem_singleton] at hc
        tauto
      · simp at hc
    · have := mem_natToChars_digit hc
      tauto
  · rcases hc with (hc | hc) | hc | hc
    · split at hc
      · simp only [List.mem_singleton] at hc
        tauto
      · simp at hc
    · have := mem_natToChars_digit hc
      tauto
    · tauto
    · have := mem_padZeros_digit hc
      tauto

theorem stripChars_renderFixed (q : ℚ) (d : ℕ) :
    stripChars (renderFixed q d) = renderFixed q d :=
  stripChars_of_no_space (fun c hc => plainNumCh_not_space (renderFixed_plain c hc))

theorem digit_head_ne_sign {c : Char} (h : isDigitCh c = true) :
    c ≠ '-' ∧ c ≠ '+' := by
  have h1 := isDigitCh_spec h
  have hm : ('-' : Char).toNat = 45 := rfl
  have hp : ('+' : Char).toNat = 43 := rfl
  constructor <;> intro heq <;> rw [heq] at h1 <;> omega

/-- Digit-and-dot body of a fixed-point rendering for the absolute value
`a` of the scaled, rounded number. -/
def fixedBody (a d : ℕ) : List Char :=
  if d = 0 then natToChars a
  else natToChars (a / 10 ^ d) ++ '.' :: padZeros d (a % 10 ^ d)

theorem renderFixed_eq_sign_body (q : ℚ) (d : ℕ) :
    renderFixed q d =
      (if roundHE (q * 10 ^ d) < 0 then ['-'] else []) ++
        fixedBody (roundHE (q * 10 ^ d)).natAbs d := by
  rw [renderFixed, fixedBody]
  split <;> simp

theorem parseUnsignedDec_fixedBody (a : ℕ) (d : ℕ) :
    parseUnsignedDec (fixedBody a d) = some ((a : ℚ) / 10 ^ d) := by
  rw [fixedBody]
  split
  · next hd0 =>
    rw [parseUnsignedDec_digits (natToChars_ne_nil _) (allDigits_natToChars _),
      digitsVal_natToChars, hd0]
    norm_num
  · next hd0 => exact parseUnsignedDec_body _ (by omega)

theorem fixedBody_shape (a d : ℕ) :
    fixedBody a d =
      natToChars (if d = 0 then a else a / 10 ^ d) ++
        (if d = 0 then [] else '.' :: padZeros d (a % 10 ^ d)) := by
  rw [fixedBody]
  split <;> simp

/-- Round trip of the fixed-point renderer through the decimal parser:
parsing the rendered string recovers exactly the rounded scaled value. -/
theorem parseDecimal_renderFixed (q : ℚ) (d : ℕ) :
    parseDecimal (renderFixed q d) =
      some ((roundHE (q * 10 ^ d) : ℚ) / 10 ^ d) := by
  rw [parseDecimal, stripChars_renderFixed, renderFixed_eq_sign_body]
  rcases lt_or_le (roundHE (q * 10 ^ d)) 0 with hneg | hpos
  · simp only [hneg, if_true, List.singleton_append]
    have h1 : ((roundHE (q * 10 ^ d) : ℚ)) < 0 := Int.cast_lt_zero.mpr hneg
    have habs : (((roundHE (q * 10 ^ d)).natAbs : ℚ)) =
        -((roundHE (q * 10 ^ d)) : ℚ) := by
      rw [Int.cast_natAbs, Int.cast_abs]
      exact abs_of_neg h1
    simp only [parseUnsignedDec_fixedBody, habs, Option.map_some', if_pos]
    congr 1
    ring
  · simp only [not_lt.mpr hpos, if_false, List.nil_append]
    rw [fixedBody_shape]
    obtain ⟨c, cs2, hx⟩ :=
      List.exists_cons_of_ne_nil
        (natToChars_ne_nil (if d = 0 then (roundHE (q * 10 ^ d)).natAbs
          else (roundHE (q * 10 ^ d)).natAbs / 10 ^ d))
    have hmemc : c ∈ natToChars (if d = 0 then (roundHE (q * 10 ^ d)).natAbs
        else (roundHE (q * 10 ^ d)).natAbs / 10 ^ d) := by
      rw [hx]
      simp
    have hcd : isDigitCh c = true := mem_natToChars_digit hmemc
    have hsign := digit_head_ne_sign hcd
    rw [hx, List.cons_append]
    simp only [if_neg hsign.1, if_neg hsign.2]
    rw [← List.cons_append, ← hx, ← fixedBody_shape, parseUnsignedDec_fixedBody]
    have habs : (((roundHE (q * 10 ^ d)).natAbs : ℚ)) =
        ((roundHE (q * 10 ^ d)) : ℚ) := by
      rw [Int.cast_natAbs, Int.cast_abs]
      exact abs_of_nonneg (Int.cast_nonneg.mpr hpos)
    rw [habs]

/-! ### The formatting module (`src/utils/formatting.py`)

Numbers are `Option ℚ` (`none` = `NaN`/non-numeric), strings are `String`. -/

/-- Model of `format_tvl`: human readable size string with B/M/K suffix.
Null, and exactly zero, format as `"N/A"`; the magnitude test uses the
absolute value while the sign is preserved in the rendered number. -/
def format_tvl (tvl : Option ℚ) : String :=
  match tvl with
  | none => "N/A"
  | some v =>
    if v = 0 then "N/A"
    else if 1000000000 ≤ |v| then ⟨'$' :: (renderFixed (v / 1000000000) 2 ++ ['B'])⟩
    else if 1000000 ≤ |v| then ⟨'$' :: (renderFixed (v / 1000000) 2 ++ ['M'])⟩
    else if 1000 ≤ |v| then ⟨'$' :: (renderFixed (v / 1000) 1 ++ ['K'])⟩
    else ⟨'$' :: renderFixed v 0⟩

/-- Model of `format_apy`: two-decimal percentage string, `"N/A"` for null. -/
def format_apy (apy : Option ℚ) : String :=
  match apy with
  | none => "N/A"
  | some v => ⟨renderFixed v 2 ++ ['%']⟩

/-- Model of `format_metadata`: `"N/A"` for null or empty, else the value. -/
def format_metadata (v : Option String) : String :=
  match v with
  | none => "N/A"
  | some s => if s = "" then "N/A" else s

/-- Model of `format_staked_proportion` on the string inputs the manual data
supplies: null, `""` and `"?"` become `"N/A"`, other strings pass through
(the numeric branch of the source is never reached by string inputs). -/
def format_staked_proportion (v : Option String) : String :=
  match v with
  | none => "N/A"
  | some s => if s = "" || s = "?" then "N/A" else s

/-- Model of `parse_yield`: `"N/A"` parses to null, otherwise strip
whitespace, drop every `%`, and parse as a float. -/
def parse_yield (s : String) : Option ℚ :=
  if s = "N/A" then none
  else parseDecimal ((stripChars s.data).filter (fun c => !(c = '%')))

/-- Model of `parse_tvl`: `"N/A"` parses to null, otherwise strip
whitespace, drop `$` and `,`, lowercase, read an optional trailing
b/m/k magnitude suffix, and parse the rest as a float. -/
def parse_tvl (s : String) : Option ℚ :=
  if s = "N/A" then none
  else
    let cs := ((stripChars s.data).filter (fun c => !(c = '$' || c = ','))).map toLowerChar
    if cs.getLast? = some 'b' then (parseDecimal cs.dropLast).map (fun x => x * 1000000000)
    else if cs.getLast? = some 'm' then (parseDecimal cs.dropLast).map (fun x => x * 1000000)
    else if cs.getLast? = some 'k' then (parseDecimal cs.dropLast).map (fun x => x * 1000)
    else parseDecimal cs

/-- Lowercase an entire string. -/
def lowerStr (s : String) : String := ⟨s.data.map toLowerChar⟩

/-- Character list `needle` occurs at the start of `hay`. -/
def charsStartWith : List Char → List Char → Bool
  | [], _ => true
  | _ :: _, [] => false
  | a :: as, b :: bs => a = b && charsStartWith as bs

/-- Character list `needle` occurs contiguously anywhere in `hay`, the model
of the Python `in` operator on strings. -/
def charsContain (hay needle : List Char) : Bool :=
  match hay with
  | [] => needle.isEmpty
  | _ :: rest => charsStartWith needle hay || charsContain rest needle

/-- Python `needle in hay` on strings. -/
def strContains (hay needle : String) : Bool := charsContain hay.data needle.data

/-- Ordered keyword matching of the strategy classifier on an already
lowercased description; the first matching rule wins. -/
def classifyChain (desc : String) : String :=
  if desc = "n/a" || desc = "" then "Unknown/Other"
  else if strContains desc "t-bill" || strContains desc "treasury" ||
      strContains desc "rwa" then "RWA/Treasury-backed"
  else if strContains desc "delta neutral" || strContains desc "funding" ||
      strContains desc "cash & carry" || strContains desc "delta neutra" ||
      strContains desc "perps funding" then "Delta Neutral/Arb"
  else if strContains desc "restaking" then "Restaking"
  else if strContains desc "native protocol yield" ||
      strContains desc "protocol revenue" ||
      strContains desc "interest paid by" || strContains desc "safety module" ||
      strContains desc "native dex" ||
      strContains desc "sky savings rate" then "Protocol Native Yield"
  else if strContains desc "loan" || strContains desc "lend" ||
      strContains desc "borrower interest" ||
      strContains desc "morpho vault" then "Lending/Borrowing"
  else if strContains desc "index" || strContains desc "diversified" ||
      strContains desc "mixture" then "Index/Diversified"
  else if strContains desc "farming" || strContains desc "3rd party defi" ||
      strContains desc "across defi bluechips" then "External DeFi Farming"
  else if strContains desc "institutional trading" then "Trading Strategy"
  else if strContains desc "swap fees" then "LP Fees"
  else if strContains desc "option" then "Options/Structured Product"
  else "Unknown/Other"

/-- Model of `categorize_stablecoin_by_strategy`: lowercase the description,
then run the ordered keyword rules. -/
def categorize_stablecoin_by_strategy (descIn : String) : String :=
  classifyChain (lowerStr descIn)

/-! ### Round-trip lemmas for the formatter pair -/

theorem ne_of_toNat_ne {c d : Char} (h : c.toNat ≠ d.toNat) : c ≠ d :=
  fun heq => h (congrArg Char.toNat heq)

theorem plainNumCh_toNat_le {c : Char} (h : plainNumCh c = true) :
    45 ≤ c.toNat ∧ c.toNat ≤ 57 := by
  rcases plainNumCh_toNat h with h1 | h1 | h1 <;> omega

theorem toLowerChar_of_lt {c : Char} (h : c.toNat < 65) : toLowerChar c = c := by
  rw [toLowerChar, if_neg]
  simp only [Bool.and_eq_true, decide_eq_true_eq, not_and]
  omega

theorem map_toLowerChar_plain {l : List Char}
    (h : ∀ c ∈ l, plainNumCh c = true) : l.map toLowerChar = l := by
  induction l with
  | nil => rfl
  | cons c t ih =>
    simp only [List.map_cons]
    have h1 := plainNumCh_toNat_le (h c (by simp))
    rw [toLowerChar_of_lt (by omega), ih (fun x hx => h x (by simp [hx]))]

theorem filter_keep_plain {l : List Char} {p : Char → Bool}
    (hall : ∀ c ∈ l, plainNumCh c = true)
    (hp : ∀ c, plainNumCh c = true → p c = true) : l.filter p = l :=
  List.filter_eq_self.mpr (fun c hc => hp c (hall c hc))

theorem mem_of_getLast?_eq {α : Type} {l : List α} {a : α}
    (h : l.getLast? = some a) : a ∈ l := by
  induction l with
  | nil => simp at h
  | cons b t ih =>
    cases t with
    | nil =>
      simp only [List.getLast?_singleton, Option.some.injEq] at h
      simp [h]
    | cons b2 t2 =>
      rw [List.getLast?_cons_cons] at h
      simpa using Or.inr (ih h)

theorem mk_ne_NA {l : List Char} (h : ('N' : Char) ∉ l) :
    (⟨l⟩ : String) ≠ "N/A" := by
  intro heq
  apply h
  have h2 : l = "N/A".data := congrArg String.data heq
  rw [h2]
  decide

/-- Parsing the output of the APY formatter recovers exactly the value
rounded half-to-even at the second decimal. -/
theorem parse_yield_format_apy (v : ℚ) :
    parse_yield (format_apy (some v)) =
      some ((roundHE (v * 10 ^ 2) : ℚ) / 10 ^ 2) := by
  rw [format_apy]
  have hNA : (⟨renderFixed v 2 ++ ['%']⟩ : String) ≠ "N/A" := by
    apply mk_ne_NA
    intro hmem
    rcases List.mem_append.mp hmem with hm | hm
    · have := plainNumCh_toNat_le (renderFixed_plain _ hm)
      have hN : ('N' : Char).toNat = 78 := rfl
      omega
    · simp at hm
  rw [parse_yield, if_neg hNA]
  have hdata : (⟨renderFixed v 2 ++ ['%']⟩ : String).data =
      renderFixed v 2 ++ ['%'] := rfl
  rw [hdata, stripChars_of_no_space, List.filter_append,
    filter_keep_plain (fun c hc => renderFixed_plain c hc)]
  · have hpc : (List.filter (fun c => !(c = '%')) ['%']) = [] := by decide
    rw [hpc, List.append_nil, parseDecimal_renderFixed]
  · intro c hc
    have h1 := plainNumCh_toNat_le hc
    have hp : ('%' : Char).toNat = 37 := rfl
    have hne : c ≠ '%' := by
      intro heq
      rw [heq] at h1
      omega
    simp [hne]
  · intro c hc
    rcases List.mem_append.mp hc with hm | hm
    · exact plainNumCh_not_space (renderFixed_plain _ hm)
    · simp only [List.mem_singleton] at hm
      rw [hm]
      decide

theorem stripChars_dollar_suffix {l : List Char}
    (hl : ∀ c ∈ l, isSpaceCh c = false) :
    stripChars ('$' :: l) = '$' :: l := by
  apply stripChars_of_no_space
  intro c hc
  rcases List.mem_cons.mp hc with hm | hm
  · rw [hm]
    decide
  · exact hl c hm

theorem filter_dollar {l : List Char}
    (hl : ∀ c ∈ l, (!(c = '$' || c = ',')) = true) :
    ('$' :: l).filter (fun c => !(c = '$' || c = ',')) = l := by
  rw [List.filter_cons, if_neg (by decide)]
  exact List.filter_eq_self.mpr hl

theorem plain_keep_dollar {c : Char} (hc : plainNumCh c = true) :
    (!(c = '$' || c = ',')) = true := by
  have h1 := plainNumCh_toNat_le hc
  have hd : ('$' : Char).toNat = 36 := rfl
  have hcm : (',' : Char).toNat = 44 := rfl
  have hne1 : c ≠ '$' := by
    intro heq
    rw [heq] at h1
    omega
  have hne2 : c ≠ ',' := by
    intro heq
    rw [heq] at h1
    omega
  simp [hne1, hne2]

theorem renderFixed_notN {w : ℚ} {d : ℕ} : ('N' : Char) ∉ renderFixed w d := by
  intro hmem
  have h1 := plainNumCh_toNat_le (renderFixed_plain _ hmem)
  have hN : ('N' : Char).toNat = 78 := rfl
  omega

/-- Core of the `parse_tvl ∘ format_tvl` round trip for the suffixed
branches: stripping, `$`/`,` removal and lowercasing turn the formatted
string back into a rendered number followed by the lowercased suffix. -/
theorem parse_tvl_clean_suffix (w : ℚ) (d : ℕ) {C : Char}
    (hCtoNat : 66 ≤ C.toNat ∧ C.toNat ≤ 77) :
    ((stripChars ('$' :: (renderFixed w d ++ [C]))).filter
        (fun c => !(c = '$' || c = ','))).map toLowerChar =
      renderFixed w d ++ [toLowerChar C] := by
  have hCd : ('$' : Char).toNat = 36 := rfl
  have hCc : (',' : Char).toNat = 44 := rfl
  have hCne1 : C ≠ '$' := by
    intro heq
    rw [heq] at hCtoNat
    omega
  have hCne2 : C ≠ ',' := by
    intro heq
    rw [heq] at hCtoNat
    omega
  have hCns : isSpaceCh C = false := by
    cases hs : isSpaceCh C with
    | false => rfl
    | true =>
      have := isSpaceCh_spec hs
      omega
  rw [stripChars_dollar_suffix, filter_dollar, List.map_append,
    map_toLowerChar_plain (fun c hc => renderFixed_plain c hc), List.map_singleton]
  · intro c hc
    rcases List.mem_append.mp hc with hm | hm
    · exact plain_keep_dollar (renderFixed_plain _ hm)
    · simp only [List.mem_singleton] at hm
      rw [hm]
      simp [hCne1, hCne2]
  · intro c hc
    rcases List.mem_append.mp hc with hm | hm
    · exact plainNumCh_not_space (renderFixed_plain _ hm)
    · simp only [List.mem_singleton] at hm
      rw [hm, hCns]

theorem mk_dollar_ne_NA {l : List Char} : (⟨'$' :: l⟩ : String) ≠ "N/A" := by
  intro heq
  have h2 : '$' :: l = "N/A".data := congrArg String.data heq
  have h3 : "N/A".data = ['N', '/', 'A'] := rfl
  rw [h3] at h2
  have h4 : ('$' : Char) = 'N' := (List.cons.injEq _ _ _ _ ▸ h2).1
  exact absurd h4 (by decide)

theorem parse_tvl_dollar_suffix (w : ℚ) (d : ℕ) {C : Char}
    (hCtoNat : 66 ≤ C.toNat ∧ C.toNat ≤ 77) :
    parse_tvl ⟨'$' :: (renderFixed w d ++ [C])⟩ =
      (if toLowerChar C = 'b' then
        (parseDecimal (renderFixed w d)).map (fun x => x * 1000000000)
      else if toLowerChar C = 'm' then
        (parseDecimal (renderFixed w d)).map (fun x => x * 1000000)
      else if toLowerChar C = 'k' then
        (parseDecimal (renderFixed w d)).map (fun x => x * 1000)
      else parseDecimal (renderFixed w d ++ [toLowerChar C])) := by
  rw [parse_tvl, if_neg mk_dollar_ne_NA]
  have hdata : (⟨'$' :: (renderFixed w d ++ [C])⟩ : String).data =
      '$' :: (renderFixed w d ++ [C]) := rfl
  rw [hdata, parse_tvl_clean_suffix w d hCtoNat]
  simp only [List.getLast?_concat, List.dropLast_concat]
  by_cases hb : toLowerChar C = 'b'
  · rw [if_pos (by rw [hb]), if_pos hb]
  · rw [if_neg (by simp [hb]), if_neg hb]
    by_cases hm : toLowerChar C = 'm'
    · rw [if_pos (by rw [hm]), if_pos hm]
    · rw [if_neg (by simp [hm]), if_neg hm]
      by_cases hk : toLowerChar C = 'k'
      · rw [if_pos (by rw [hk]), if_pos hk]
      · rw [if_neg (by simp [hk]), if_neg hk]

/-- Value rounded half-to-even at `d` decimal places, the model of Python
`round(x, d)` and of the rounding that `f"{x:.df}"` performs. -/
def roundTo (d : ℕ) (x : ℚ) : ℚ := (roundHE (x * 10 ^ d) : ℚ) / 10 ^ d

theorem roundTo_bound (d : ℕ) (x : ℚ) : |roundTo d x - x| ≤ 1 / (2 * 10 ^ d) := by
  have hb := roundHE_bound (x * 10 ^ d)
  have h10 : (0 : ℚ) < 10 ^ d := by positivity
  rw [roundTo]
  have hx : (roundHE (x * 10 ^ d) : ℚ) / 10 ^ d - x =
      ((roundHE (x * 10 ^ d) : ℚ) - x * 10 ^ d) / 10 ^ d := by
    field_simp
    ring
  rw [hx, abs_div, abs_of_pos h10, div_le_div_iff₀ h10 (by positivity)]
  calc |(roundHE (x * 10 ^ d) : ℚ) - x * 10 ^ d| * (2 * 10 ^ d)
      ≤ (1 / 2) * (2 * 10 ^ d) := by
        apply mul_le_mul_of_nonneg_right hb
        positivity
    _ = 1 * 10 ^ d := by ring

theorem roundTo_intCast (z : ℤ) : roundTo 0 (z : ℚ) = z := by
  rw [roundTo, pow_zero, mul_one, roundHE_intCast, div_one]

theorem parse_tvl_format_tvl_B {v : ℚ} (h : 1000000000 ≤ |v|) :
    parse_tvl (format_tvl (some v)) = some (roundTo 2 (v / 1000000000) * 1000000000) := by
  have h0 : v ≠ 0 := by
    intro h0
    rw [h0] at h
    norm_num at h
  rw [format_tvl]
  simp only [if_neg h0, if_pos h]
  rw [parse_tvl_dollar_suffix _ _ (by decide), if_pos (by decide),
    parseDecimal_renderFixed, Option.map_some', roundTo]

theorem parse_tvl_format_tvl_M {v : ℚ} (h1 : |v| < 1000000000) (h : 1000000 ≤ |v|) :
    parse_tvl (format_tvl (some v)) = some (roundTo 2 (v / 1000000) * 1000000) := by
  have h0 : v ≠ 0 := by
    intro h0
    rw [h0] at h
    norm_num at h
  rw [format_tvl]
  simp only [if_neg h0, if_neg (not_le.mpr h1), if_pos h]
  rw [parse_tvl_dollar_suffix _ _ (by decide), if_neg (by decide),
    if_pos (by decide), parseDecimal_renderFixed, Option.map_some', roundTo]

theorem parse_tvl_format_tvl_K {v : ℚ} (h1 : |v| < 1000000) (h : 1000 ≤ |v|) :
    parse_tvl (format_tvl (some v)) = some (roundTo 1 (v / 1000) * 1000) := by
  have h0 : v ≠ 0 := by
    intro h0
    rw [h0] at h
    norm_num at h
  have h2 : ¬ (1000000000 ≤ |v|) := by
    intro hc
    linarith
  rw [format_tvl]
  simp only [if_neg h0, if_neg h2, if_neg (not_le.mpr h1), if_pos h]
  rw [parse_tvl_dollar_suffix _ _ (by decide), if_neg (by decide),
    if_neg (by decide), if_pos (by decide), parseDecimal_renderFixed,
    Option.map_some', roundTo]

theorem parse_tvl_format_tvl_unit {v : ℚ} (h0 : v ≠ 0) (h : |v| < 1000) :
    parse_tvl (format_tvl (some v)) = some (roundTo 0 v) := by
  have h2 : ¬ (1000000000 ≤ |v|) := by
    intro hc
    linarith
  have h3 : ¬ (1000000 ≤ |v|) := by
    intro hc
    linarith
  rw [format_tvl]
  simp only [if_neg h0, if_neg h2, if_neg h3, if_neg (not_le.mpr h)]
  rw [parse_tvl, if_neg mk_dollar_ne_NA]
  have hdata : (⟨'$' :: renderFixed v 0⟩ : String).data = '$' :: renderFixed v 0 := rfl
  rw [hdata,
    stripChars_dollar_suffix (fun c hc => plainNumCh_not_space (renderFixed_plain c hc)),
    filter_dollar (fun c hc => plain_keep_dollar (renderFixed_plain c hc)),
    map_toLowerChar_plain (fun c hc => renderFixed_plain c hc)]
  rcases hL : (renderFixed v 0).getLast? with _ | c
  · simp only [hL]
    rw [if_neg (by simp), if_neg (by simp), if_neg (by simp),
      parseDecimal_renderFixed, roundTo]
  · have hplain := plainNumCh_toNat_le (renderFixed_plain _ (mem_of_getLast?_eq hL))
    have hcb : c ≠ 'b' := by
      intro heq
      rw [heq] at hplain
      have : ('b' : Char).toNat = 98 := rfl
      omega
    have hcm : c ≠ 'm' := by
      intro heq
      rw [heq] at hplain
      have : ('m' : Char).toNat = 109 := rfl
      omega
    have hck : c ≠ 'k' := by
      intro heq
      rw [heq] at hplain
      have : ('k' : Char).toNat = 107 := rfl
      omega
    simp only [hL]
    rw [if_neg (by simp [hcb]), if_neg (by simp [hcm]), if_neg (by simp [hck]),
      parseDecimal_renderFixed, roundTo]

/-! ### Data model of the pipeline (`src/utils/data_processing.py`)

Dataframes are lists of typed records; the sentinel dataframes of
`create_error_dataframe` are the tagged constructors of `PipelineResult`
(`warning` = the NoMatchBase sentinel, `warningTvl` = the NoMatchThreshold
sentinel). The fetched base table is an explicit argument. -/

/-- One normalized pool record, as produced by `fetch_defillama_yield_pools`:
string columns are total, `tvlUsd`/`apy` are nullable numerics, and
`join_symbol` is the lowercased symbol. -/
structure PoolRecord where
  chain : String
  project : String
  symbol : String
  join_symbol : String
  stablecoin : Bool
  tvlUsd : Option ℚ
  apy : Option ℚ
deriving DecidableEq, Repr

/-- One stablecoin metadata record, as produced by `get_stablecoin_metadata`. -/
structure MetaRecord where
  symbol : String
  name : Option String
  pegMechanism : Option String
  pegType : Option String
  join_symbol : String
deriving DecidableEq, Repr

/-- A pool row after the left join: pool fields plus optional metadata. -/
structure MergedRow where
  pool : PoolRecord
  meta : Option MetaRecord
deriving DecidableEq, Repr

/-- Row of the Pool Yields display table, one field per column of
`display_columns_yield`. -/
structure DisplayRow where
  chain : String
  project : String
  assetSymbol : String
  apyStr : String
  tvlStr : String
  issuerName : String
  pegTypeStr : String
deriving DecidableEq, Repr

/-- Row of the Pool Yield Analytics table (numeric columns stay numeric). -/
structure AnalyticsRow where
  chain : String
  project : String
  assetSymbol : String
  apy : Option ℚ
  tvlUsd : Option ℚ
  issuerName : String
  pegTypeStr : String
  pegMechanismStr : String
deriving DecidableEq, Repr

/-- Outcome of a pipeline entry point: the error sentinel, the NoMatchBase
sentinel (`warning`), the NoMatchThreshold sentinel (`warningTvl`), or a
populated table. -/
inductive PipelineResult (ρ : Type) where
  | error (msg : String)
  | warning (msg : String)
  | warningTvl (msg : String)
  | table (rows : List ρ)
deriving DecidableEq, Repr

/-- Relevance filter: keep a record iff its stablecoin flag is set or its
join symbol is one of the target yield assets. -/
def relevanceFilter (targets : List String) (l : List PoolRecord) : List PoolRecord :=
  l.filter (fun r => r.stablecoin || targets.contains r.join_symbol)

/-- TVL threshold filter: keep a record iff its TVL, null read as 0, is
strictly greater than `minTvl`. -/
def tvlFilter (minTvl : ℚ) (l : List PoolRecord) : List PoolRecord :=
  l.filter (fun r => decide (r.tvlUsd.getD 0 > minTvl))

/-- First-occurrence deduplication by join symbol, the model of
`drop_duplicates(subset=[join_symbol])`. -/
def dedupByJoinSymbol : List MetaRecord → List MetaRecord
  | [] => []
  | m :: rest =>
    m :: dedupByJoinSymbol (rest.filter (fun x => !(x.join_symbol = m.join_symbol)))
termination_by l => l.length
decreasing_by exact Nat.lt_succ_of_le (List.length_filter_le _ _)

/-- Left join with the deduplicated metadata: every pool row is kept once,
matched with the first metadata row carrying the same join symbol; with no
usable metadata the metadata fields stay null. -/
def mergeMeta (meta : Option (List MetaRecord)) (pools : List PoolRecord) :
    List MergedRow :=
  match meta with
  | none => pools.map (fun p => ⟨p, none⟩)
  | some ms =>
    if ms.isEmpty then pools.map (fun p => ⟨p, none⟩)
    else
      pools.map (fun p =>
        ⟨p, (dedupByJoinSymbol ms).find? (fun m => m.join_symbol = p.join_symbol)⟩)

/-- Descending comparison on optional yields with nulls last, the order of
`sort_values(by=yield, ascending=False, na_position=last)`. -/
def apyLe (a b : Option ℚ) : Bool :=
  match a, b with
  | some x, some y => decide (y ≤ x)
  | some _, none => true
  | none, some _ => false
  | none, none => true

/-- One merged row formatted for the Pool Yields display table. -/
def toDisplayRow (m : MergedRow) : DisplayRow where
  chain := format_metadata (some m.pool.chain)
  project := format_metadata (some m.pool.project)
  assetSymbol := format_metadata (some m.pool.symbol)
  apyStr := format_apy m.pool.apy
  tvlStr := format_tvl m.pool.tvlUsd
  issuerName := format_metadata (m.meta.bind (fun x => x.name))
  pegTypeStr := format_metadata (m.meta.bind (fun x => x.pegType))

/-- Model of `get_yield_data`: relevance filter, TVL threshold filter, left
join, sort by APY descending with nulls last, and display formatting, with
the early sentinel returns of the source. -/
def get_yield_data (minTvl : ℚ) (targets : List String)
    (meta : Option (List MetaRecord)) (baseDf : Option (List PoolRecord)) :
    PipelineResult DisplayRow :=
  match baseDf with
  | none => .error "Data fetch failed"
  | some base =>
    if base.isEmpty then .warning "No pools matched base criteria"
    else
      let rel := relevanceFilter targets base
      if rel.isEmpty then .warning "No pools matched base criteria"
      else
        let tvlF := tvlFilter minTvl rel
        if tvlF.isEmpty then
          .warningTvl ("No pools matched TVL > " ++ format_tvl (some minTvl))
        else
          let merged := mergeMeta meta tvlF
          let sorted := merged.mergeSort (fun a b => apyLe a.pool.apy b.pool.apy)
          .table (sorted.map toDisplayRow)

/-- Model of pandas `astype(str).fillna(N/A).replace(empty, N/A)` on an
optional string column: a null prints as the string `"nan"` before `fillna`
can see it, and empty strings become `"N/A"`. -/
def strColClean (v : Option String) : String :=
  match v with
  | none => "nan"
  | some s => if s = "" then "N/A" else s

/-- One merged row shaped for the Pool Yield Analytics table. -/
def toAnalyticsRow (m : MergedRow) : AnalyticsRow where
  chain := strColClean (some m.pool.chain)
  project := strColClean (some m.pool.project)
  assetSymbol := strColClean (some m.pool.symbol)
  apy := m.pool.apy
  tvlUsd := m.pool.tvlUsd
  issuerName := strColClean (m.meta.bind (fun x => x.name))
  pegTypeStr := strColClean (m.meta.bind (fun x => x.pegType))
  pegMechanismStr := strColClean (m.meta.bind (fun x => x.pegMechanism))

/-- Model of `get_analytics_data`: same filters and left join as
`get_yield_data`, rows missing APY or TVL dropped, numeric columns kept
numeric; the source applies no sort in this pipeline. -/
def get_analytics_data (minTvl : ℚ) (targets : List String)
    (meta : Option (List MetaRecord)) (baseDf : Option (List PoolRecord)) :
    PipelineResult AnalyticsRow :=
  match baseDf with
  | none => .error "Data fetch failed"
  | some base =>
    if base.isEmpty then .warning "No pools matched base criteria"
    else
      let rel := relevanceFilter targets base
      if rel.isEmpty then .warning "No pools matched base criteria"
      else
        let tvlF := tvlFilter minTvl rel
        if tvlF.isEmpty then
          .warningTvl ("No pools matched TVL > " ++ format_tvl (some minTvl))
        else
          let merged := mergeMeta meta tvlF
          let kept := merged.filter (fun m => m.pool.apy.isSome && m.pool.tvlUsd.isSome)
          .table (kept.map toAnalyticsRow)

/-! ### Curated tables (manual stablecoin data) -/

/-- One entry of the manual stablecoin data dictionary: the dictionary key
plus the optional fields read with `dict.get`. -/
structure ManualEntry where
  key : String
  project : Option String
  ticker : Option String
  yieldStr : Option String
  tvl : Option String
  description : Option String
  stakedProportion : Option String
deriving DecidableEq, Repr

/-- Row of the curated Stablecoin Yields table. -/
structure CuratedRow where
  project : String
  ticker : String
  yieldStr : String
  tvl : String
  description : String
  stakedProportion : String
deriving DecidableEq, Repr

/-- Row of the curated Stablecoin Analytics table. -/
structure EnhancedRow where
  project : String
  assetSymbol : String
  apy : Option ℚ
  tvlUsd : Option ℚ
  strategyType : String
  description : String
  stakedProportion : String
deriving DecidableEq, Repr

/-- Uppercase an entire string. -/
def upperStr (s : String) : String := ⟨s.data.map toUpperChar⟩

/-- Build one curated row from a manual entry, with the `N/A` defaults
of the source dictionary accesses. -/
def toCuratedRow (e : ManualEntry) : CuratedRow where
  project := e.project.getD "N/A"
  ticker := e.ticker.getD (upperStr e.key)
  yieldStr := e.yieldStr.getD "N/A"
  tvl := e.tvl.getD "N/A"
  description := e.description.getD "N/A"
  stakedProportion := format_staked_proportion (some (e.stakedProportion.getD "N/A"))

/-- Model of the final `replacement of empty and question-mark cells by N/A` cleanup on one cell. -/
def cleanNAStr (s : String) : String :=
  if s = "" || s = "?" then "N/A" else s

/-- The cleanup applied to every column of a curated row. -/
def cleanCuratedRow (r : CuratedRow) : CuratedRow where
  project := cleanNAStr r.project
  ticker := cleanNAStr r.ticker
  yieldStr := cleanNAStr r.yieldStr
  tvl := cleanNAStr r.tvl
  description := cleanNAStr r.description
  stakedProportion := cleanNAStr r.stakedProportion

/-- Model of `get_stablecoin_yields_data`: build rows from the manual
dictionary, sort by the parsed yield descending with nulls last, then clean
sentinel cell values. -/
def get_stablecoin_yields_data (manual : List ManualEntry) :
    PipelineResult CuratedRow :=
  let rows := manual.map toCuratedRow
  if rows.isEmpty then .warning "Manual stablecoin data is empty"
  else
    let sorted := rows.mergeSort
      (fun a b => apyLe (parse_yield a.yieldStr) (parse_yield b.yieldStr))
    .table (sorted.map cleanCuratedRow)

/-- One curated row shaped for the Stablecoin Analytics table, with parsed
numeric columns and the derived strategy category. -/
def toEnhancedRow (r : CuratedRow) : EnhancedRow where
  project := r.project
  assetSymbol := r.ticker
  apy := parse_yield r.yieldStr
  tvlUsd := parse_tvl r.tvl
  strategyType := categorize_stablecoin_by_strategy r.description
  description := r.description
  stakedProportion := r.stakedProportion

/-- The string-column cleanup `get_enhanced_analytics_data` applies after
dropping rows with missing numerics. -/
def cleanEnhancedRow (r : EnhancedRow) : EnhancedRow :=
  { r with
    project := strColClean (some r.project)
    assetSymbol := strColClean (some r.assetSymbol)
    description := strColClean (some r.description)
    strategyType := strColClean (some r.strategyType) }

/-- Model of `get_enhanced_analytics_data`: take the curated table, parse
yield and TVL into numerics, classify the strategy, drop rows missing
either numeric, and clean the string columns. A sentinel from the curated
stage becomes the error sentinel (the `warningTvl` constructor cannot be
produced by `get_stablecoin_yields_data`; it is mapped like the others to
keep the function total). -/
def get_enhanced_analytics_data (manual : List ManualEntry) :
    PipelineResult EnhancedRow :=
  match get_stablecoin_yields_data manual with
  | .warning _ => .error "Failed to load manual source data"
  | .error _ => .error "Failed to load manual source data"
  | .warningTvl _ => .error "Failed to load manual source data"
  | .table rows =>
    if rows.isEmpty then .warning "Manual source data is empty"
    else
      let withCols := rows.map toEnhancedRow
      let kept := withCols.filter (fun r => r.apy.isSome && r.tvlUsd.isSome)
      .table (kept.map cleanEnhancedRow)

/-! ### Fetch retry and rate limiting (`src/utils/api.py`, `src/utils/security.py`) -/

/-- Configured rate limit ceiling: requests per window. -/
def RATE_LIMIT_REQUESTS_PER_MINUTE : ℕ := 60

/-- Configured rate limit window in seconds. -/
def RATE_LIMIT_WINDOW_SECONDS : ℤ := 60

/-- Per-domain rate limiting record, one value of `RATE_LIMIT_STORE`. -/
structure DomainLimits where
  last_request : ℤ
  count : ℕ
  window_start : ℤ
deriving DecidableEq, Repr

/-- The rate limit store: association of domains to their limit records. -/
abbrev RateStore := List (String × DomainLimits)

/-- Look a domain up in the store. -/
def storeLookup (store : RateStore) (domain : String) : Option DomainLimits :=
  (store.find? (fun p => p.1 = domain)).map (fun p => p.2)

/-- Write a domain entry, replacing the first existing entry if any. -/
def storeSet : RateStore → String → DomainLimits → RateStore
  | [], domain, dl => [(domain, dl)]
  | (k, v) :: rest, domain, dl =>
    if k = domain then (domain, dl) :: rest
    else (k, v) :: storeSet rest domain dl

/-- The `SecurityError` subclasses the security block can raise before any
network attempt. -/
inductive SecErr where
  | invalidUrl
  | rateLimited
deriving DecidableEq, Repr

/-- Model of `rate_limit_request`. The argument is the domain the source
extracts with `urlparse(url).netloc` (empty for an unparseable URL) and
`now` is the current epoch second. A missing domain entry is initialised
with count 0; a window older than `RATE_LIMIT_WINDOW_SECONDS` (strict) is
reset; a count at or above the ceiling raises `RateLimitExceededError`
before any store update; otherwise the count is incremented. -/
def rate_limit_request (domain : String) (now : ℤ) (store : RateStore) :
    Except SecErr RateStore :=
  if domain = "" then .error .invalidUrl
  else
    let dl := (storeLookup store domain).getD ⟨now, 0, now⟩
    let dl2 := if now - dl.window_start > RATE_LIMIT_WINDOW_SECONDS
      then { dl with count := 0, window_start := now } else dl
    if dl2.count ≥ RATE_LIMIT_REQUESTS_PER_MINUTE then .error .rateLimited
    else .ok (storeSet store domain
      { dl2 with count := dl2.count + 1, last_request := now })

/-- Outcome of one `requests.get` attempt inside the retry loop: a payload,
or one of the caught transient failures (network/HTTP error, bad JSON,
failed response validation, any other exception). -/
inductive Attempt (α : Type) where
  | success (payload : α)
  | failure
deriving DecidableEq, Repr

/-- The retry loop of `fetch_data_with_retries`: `outcomes i` is what the
i-th attempt would produce. Returns the payload (or `none` after the
attempts are exhausted), the number of `time.sleep(delay)` calls made, and
the number of attempts made. A sleep happens after a failed attempt only
while another attempt remains. -/
def fetchLoopAux {α : Type} (outcomes : ℕ → Attempt α) (retries : ℕ)
    (attempt sleeps : ℕ) : Option α × ℕ × ℕ :=
  if _h : attempt < retries then
    match outcomes attempt with
    | .success p => (some p, sleeps, attempt + 1)
    | .failure =>
      if attempt + 1 < retries then
        fetchLoopAux outcomes retries (attempt + 1) (sleeps + 1)
      else (none, sleeps, attempt + 1)
  else (none, sleeps, attempt)
termination_by retries - attempt

/-- The retry loop started at the first attempt with no sleeps. -/
def fetchLoop {α : Type} (outcomes : ℕ → Attempt α) (retries : ℕ) :
    Option α × ℕ × ℕ :=
  fetchLoopAux outcomes retries 0 0

/-- Boundary outcome of `fetch_data_with_retries`. Because `api.py` never
imports `SecurityError`, evaluating the `except SecurityError` clause
raises `NameError` whenever the security block raises, and that exception
escapes the function; `nameError` is that escaping outcome. `failed` is the
`return None` after the attempts are exhausted. -/
inductive FetchOutcome (α : Type) where
  | ok (payload : α)
  | failed
  | nameError
deriving DecidableEq, Repr

/-- Model of `fetch_data_with_retries`: the security block (URL sanitizing
and rate limiting) runs before any attempt; if it raises, the broken
`except SecurityError` clause raises `NameError` and no attempt is made.
Otherwise the bounded retry loop runs. Returns the boundary outcome, the
rate store after the call, and the number of attempts made. -/
def fetch_data_with_retries {α : Type} (domain : String) (now : ℤ)
    (store : RateStore) (outcomes : ℕ → Attempt α) (retries : ℕ) :
    FetchOutcome α × RateStore × ℕ :=
  match rate_limit_request domain now store with
  | .error _ => (.nameError, store, 0)
  | .ok store2 =>
    match fetchLoop outcomes retries with
    | (some p, _, attempts) => (.ok p, store2, attempts)
    | (none, _, attempts) => (.failed, store2, attempts)

/-! ### Support lemmas about the pipeline -/

theorem apyLe_trans (a b c : Option ℚ) (hab : apyLe a b = true)
    (hbc : apyLe b c = true) : apyLe a c = true := by
  cases a <;> cases b <;> cases c <;> simp_all [apyLe] <;> linarith

theorem apyLe_total (a b : Option ℚ) : (apyLe a b || apyLe b a) = true := by
  cases a <;> cases b <;> simp [apyLe] <;> exact le_total _ _

theorem mergeMeta_length (meta : Option (List MetaRecord))
    (pools : List PoolRecord) : (mergeMeta meta pools).length = pools.length := by
  cases meta with
  | none => simp [mergeMeta]
  | some ms =>
    rw [mergeMeta]
    split <;> simp

theorem find?_filter_of_imp {α : Type} (p q : α → Bool) (l : List α)
    (h : ∀ x, p x = true → q x = true) :
    (l.filter q).find? p = l.find? p := by
  induction l with
  | nil => rfl
  | cons a rest ih =>
    rw [List.filter_cons]
    by_cases hq : q a = true
    · rw [if_pos hq, List.find?_cons, List.find?_cons]
      cases hp : p a
      · exact ih
      · rfl
    · rw [if_neg hq, List.find?_cons]
      cases hp : p a
      · exact ih
      · exact absurd (h a hp) hq

theorem dedup_find?_eq (ms : List MetaRecord) (js : String) :
    (dedupByJoinSymbol ms).find? (fun m => m.join_symbol = js) =
      ms.find? (fun m => m.join_symbol = js) := by
  induction ms using dedupByJoinSymbol.induct with
  | case1 => rw [dedupByJoinSymbol]
  | case2 m rest ih =>
    rw [dedupByJoinSymbol, List.find?_cons, List.find?_cons]
    cases hp : (decide (m.join_symbol = js)) with
    | true =>
      rfl
    | false =>
      rw [ih, find?_filter_of_imp]
      intro x hx
      simp only [decide_eq_true_eq] at hx hp ⊢
      simp only [Bool.not_eq_eq_eq_not, Bool.not_true, decide_eq_false_iff_not]
      intro heq
      rw [← heq, hx] at hp
      simp at hp

theorem roundTo_mono {d : ℕ} {x y : ℚ} (h : x ≤ y) : roundTo d x ≤ roundTo d y := by
  rw [roundTo, roundTo]
  apply div_le_div_of_nonneg_right ?_ (by positivity)
  exact_mod_cast roundHE_mono (by
    apply mul_le_mul_of_nonneg_right h
    positivity)

theorem parse_yield_format_apy_map (m : Option ℚ) :
    parse_yield (format_apy m) = m.map (roundTo 2) := by
  cases m with
  | none =>
    rw [format_apy]
    decide
  | some v =>
    rw [parse_yield_format_apy, Option.map_some', roundTo]

theorem apyLe_map_roundTo {x y : Option ℚ} (h : apyLe x y = true) :
    apyLe (x.map (roundTo 2)) (y.map (roundTo 2)) = true := by
  cases x <;> cases y <;>
    simp only [apyLe, Option.map_some', Option.map_none', decide_eq_true_eq] at * <;>
    first
    | trivial
    | exact roundTo_mono h

theorem parse_yield_cleanNAStr (s : String) :
    parse_yield (cleanNAStr s) = parse_yield s := by
  rw [cleanNAStr]
  split
  · next h =>
    simp only [Bool.or_eq_true, decide_eq_true_eq] at h
    rcases h with h1 | h1
    · rw [h1]
      decide
    · rw [h1]
      decide
  · rfl

theorem ratFloor_eval {q : ℚ} {z : ℤ} (h1 : (z : ℚ) ≤ q) (h2 : q < z + 1) :
    q.floor = z := by
  rw [ratFloor_eq_intFloor]
  exact Int.floor_eq_iff.mpr ⟨h1, by exact_mod_cast h2⟩

theorem scaled_roundTo_err (v scale : ℚ) (d : ℕ) (hs : 0 < scale) :
    |roundTo d (v / scale) * scale - v| ≤ scale / (2 * 10 ^ d) := by
  have hb := roundTo_bound d (v / scale)
  have hsplit : roundTo d (v / scale) * scale - v =
      (roundTo d (v / scale) - v / scale) * scale := by
    field_simp
  rw [hsplit, abs_mul, abs_of_pos hs]
  calc |roundTo d (v / scale) - v / scale| * scale
      ≤ (1 / (2 * 10 ^ d)) * scale := mul_le_mul_of_nonneg_right hb (le_of_lt hs)
    _ = scale / (2 * 10 ^ d) := by ring

/-- C4: for every finite x ≥ 0, parsePercent(formatPercent(x)) equals x
rounded (half-to-even) to 2 decimal places. -/
theorem C4_percent_round_trip (x : ℚ) (_hx : 0 ≤ x) :
    parse_yield (format_apy (some x)) = some (roundTo 2 x) := by
  rw [parse_yield_format_apy, roundTo]

theorem C4_percent_round_trip_witness :
    (0 : ℚ) ≤ 7 / 2 ∧ parse_yield (format_apy (some (7 / 2))) = some (7 / 2) := by
  constructor
  · norm_num
  · rw [C4_percent_round_trip (7 / 2) (by norm_num)]
    congr 1
    rw [roundTo]
    have h1 : (7 / 2 : ℚ) * 10 ^ 2 = ((350 : ℤ) : ℚ) := by norm_num
    rw [h1, roundHE_intCast]
    norm_num

/-- C3 counterexample: at x = 1049 (≥ 1000) the K-scale keeps one decimal,
so the round trip returns 1000 with a 4.7 percent relative error, above the
claimed 1 percent; and the below-1000 round trip is not exact: x = 0
formats as N/A whose parse is null, and x = 1/2 rounds to 0. -/
theorem C3_counterexample :
    ((1000 : ℚ) ≤ 1049) ∧
    parse_tvl (format_tvl (some 1049)) = some 1000 ∧
    ¬(|(1000 : ℚ) - 1049| ≤ 1049 / 100) ∧
    format_tvl (some 0) = "N/A" ∧
    parse_tvl "N/A" = none ∧
    parse_tvl (format_tvl (some (1 / 2))) = some 0 := by
  have hK : parse_tvl (format_tvl (some (1049 : ℚ))) =
      some (roundTo 1 ((1049 : ℚ) / 1000) * 1000) :=
    parse_tvl_format_tvl_K (by rw [abs_of_pos] <;> norm_num)
      (by rw [abs_of_pos] <;> norm_num)
  have harg : ((1049 : ℚ) / 1000) * 10 ^ 1 = 1049 / 100 := by norm_num
  have hf : ((1049 : ℚ) / 100).floor = 10 := ratFloor_eval (by norm_num) (by norm_num)
  have hr : roundHE ((1049 : ℚ) / 100) = 10 := by
    rw [roundHE, hf]
    norm_num
  have hval : roundTo 1 ((1049 : ℚ) / 1000) * 1000 = 1000 := by
    rw [roundTo, harg, hr]
    norm_num
  have hhalf : parse_tvl (format_tvl (some ((1 : ℚ) / 2))) =
      some (roundTo 0 ((1 : ℚ) / 2)) :=
    parse_tvl_format_tvl_unit (by norm_num) (by rw [abs_of_pos] <;> norm_num)
  have hf0 : ((1 : ℚ) / 2).floor = 0 := ratFloor_eval (by norm_num) (by norm_num)
  have hr0 : roundTo 0 ((1 : ℚ) / 2) = 0 := by
    rw [roundTo, pow_zero, mul_one, roundHE, hf0]
    norm_num
  refine ⟨by norm_num, ?_, by rw [abs_of_neg] <;> norm_num, ?_, rfl, ?_⟩
  · rw [hK, hval]
  · simp [format_tvl]
  · rw [hhalf, hr0]

/-- C3 (amended): the round trip parse_tvl ∘ format_tvl is within 1 percent
relative error for |x| ≥ 10^6 (B and M scales, two decimals kept) but only
within 5 percent for |x| ≥ 1000 (the K scale keeps a single decimal);
below 1000 the round trip is exact on nonzero integers, while zero formats
as N/A, which parses back to null. -/
theorem C3_size_round_trip :
    (∀ v : ℚ, 1000000 ≤ |v| →
      ∃ w, parse_tvl (format_tvl (some v)) = some w ∧ |w - v| ≤ |v| / 100) ∧
    (∀ v : ℚ, 1000 ≤ |v| →
      ∃ w, parse_tvl (format_tvl (some v)) = some w ∧ |w - v| ≤ |v| / 20) ∧
    (∀ z : ℤ, z ≠ 0 → |(z : ℚ)| < 1000 →
      parse_tvl (format_tvl (some (z : ℚ))) = some (z : ℚ)) ∧
    (format_tvl (some 0) = "N/A" ∧ parse_tvl "N/A" = none) := by
  have ha : ∀ v : ℚ, 1000000 ≤ |v| →
      ∃ w, parse_tvl (format_tvl (some v)) = some w ∧ |w - v| ≤ |v| / 100 := by
    intro v hv
    rcases le_or_lt 1000000000 |v| with hB | hB
    · refine ⟨_, parse_tvl_format_tvl_B hB, ?_⟩
      have h := scaled_roundTo_err v 1000000000 2 (by norm_num)
      have h2 : (1000000000 : ℚ) / (2 * 10 ^ 2) = 5000000 := by norm_num
      rw [h2] at h
      calc |roundTo 2 (v / 1000000000) * 1000000000 - v| ≤ 5000000 := h
        _ ≤ |v| / 100 := by linarith
    · refine ⟨_, parse_tvl_format_tvl_M hB hv, ?_⟩
      have h := scaled_roundTo_err v 1000000 2 (by norm_num)
      have h2 : (1000000 : ℚ) / (2 * 10 ^ 2) = 5000 := by norm_num
      rw [h2] at h
      calc |roundTo 2 (v / 1000000) * 1000000 - v| ≤ 5000 := h
        _ ≤ |v| / 100 := by linarith
  refine ⟨ha, ?_, ?_, ?_, rfl⟩
  · intro v hv
    rcases le_or_lt 1000000 |v| with h6 | h6
    · obtain ⟨w, hw, herr⟩ := ha v h6
      refine ⟨w, hw, ?_⟩
      have hnn : (0 : ℚ) ≤ |v| := abs_nonneg v
      linarith
    · refine ⟨_, parse_tvl_format_tvl_K h6 hv, ?_⟩
      have h := scaled_roundTo_err v 1000 1 (by norm_num)
      have h2 : (1000 : ℚ) / (2 * 10 ^ 1) = 50 := by norm_num
      rw [h2] at h
      calc |roundTo 1 (v / 1000) * 1000 - v| ≤ 50 := h
        _ ≤ |v| / 20 := by linarith
  · intro z hz hlt
    rw [parse_tvl_format_tvl_unit (Int.cast_ne_zero.mpr hz) hlt, roundTo_intCast]
  · simp [format_tvl]

theorem C3_size_round_trip_witness :
    ((1000 : ℚ) ≤ |(1049 : ℚ)|) ∧
    (∃ w, parse_tvl (format_tvl (some (1049 : ℚ))) = some w ∧
      |w - 1049| ≤ |(1049 : ℚ)| / 20) ∧
    ((5 : ℤ) ≠ 0 ∧ |((5 : ℤ) : ℚ)| < 1000 ∧
      parse_tvl (format_tvl (some ((5 : ℤ) : ℚ))) = some ((5 : ℤ) : ℚ)) := by
  refine ⟨by rw [abs_of_pos] <;> norm_num,
    C3_size_round_trip.2.1 1049 (by rw [abs_of_pos] <;> norm_num),
    by norm_num,
    by rw [abs_of_pos] <;> norm_num,
    C3_size_round_trip.2.2.1 5 (by norm_num) (by rw [abs_of_pos] <;> norm_num)⟩

/-- C7 counterexample: on the input named by the claim the classifier
returns the category spelled with spaces, `"Delta Neutral/Arb"`, not the
hyphenated `"Delta-Neutral/Arb"` of the claim (the source also spells
`Protocol Native Yield`, `External DeFi Farming`, `Trading Strategy`,
`LP Fees` and `Options/Structured Product` with spaces). -/
theorem C7_counterexample :
    categorize_stablecoin_by_strategy "delta neutral strategy" =
        "Delta Neutral/Arb" ∧
    ("Delta Neutral/Arb" : String) ≠ "Delta-Neutral/Arb" := by
  constructor
  · decide
  · decide

set_option maxHeartbeats 2000000 in
/-- C7 (amended): for every input the classifier returns exactly one
category from the fixed closed set as spelled in the source, and never the
empty string; classify("T-bills") is RWA/Treasury-backed, classify("") is
Unknown/Other, and classify("delta neutral strategy") is the
space-spelled Delta Neutral/Arb. -/
theorem C7_classifier_closed_set :
    (∀ s : String, categorize_stablecoin_by_strategy s ∈
      (["RWA/Treasury-backed", "Delta Neutral/Arb", "Restaking",
        "Protocol Native Yield", "Lending/Borrowing", "Index/Diversified",
        "External DeFi Farming", "Trading Strategy", "LP Fees",
        "Options/Structured Product", "Unknown/Other"] : List String)) ∧
    (∀ s : String, categorize_stablecoin_by_strategy s ≠ "") ∧
    categorize_stablecoin_by_strategy "T-bills" = "RWA/Treasury-backed" ∧
    categorize_stablecoin_by_strategy "" = "Unknown/Other" ∧
    categorize_stablecoin_by_strategy "delta neutral strategy" =
      "Delta Neutral/Arb" := by
  have h1 : ∀ s : String, categorize_stablecoin_by_strategy s ∈
      (["RWA/Treasury-backed", "Delta Neutral/Arb", "Restaking",
        "Protocol Native Yield", "Lending/Borrowing", "Index/Diversified",
        "External DeFi Farming", "Trading Strategy", "LP Fees",
        "Options/Structured Product", "Unknown/Other"] : List String) := by
    intro s
    unfold categorize_stablecoin_by_strategy classifyChain
    split_ifs <;> (repeat first | exact List.Mem.head _ | apply List.Mem.tail)
  refine ⟨h1, ?_, by decide, by decide, by decide⟩
  intro s heq
  have h2 := h1 s
  rw [heq] at h2
  revert h2
  decide

/-- C1: the threshold filter keeps a record iff its tvlUsd, null read as 0,
is strictly greater than minSize; when no record passes, the pipeline
returns the NoMatchThreshold sentinel; in particular one relevant record
with tvlUsd 5e9 against minSize 10e9 produces that sentinel. -/
theorem C1_threshold_filter :
    (∀ (minTvl : ℚ) (l : List PoolRecord) (r : PoolRecord),
      r ∈ tvlFilter minTvl l ↔ r ∈ l ∧ r.tvlUsd.getD 0 > minTvl) ∧
    (∀ (minTvl : ℚ) (targets : List String) (meta : Option (List MetaRecord))
        (base : List PoolRecord),
      base ≠ [] → relevanceFilter targets base ≠ [] →
      tvlFilter minTvl (relevanceFilter targets base) = [] →
      get_yield_data minTvl targets meta (some base) =
        .warningTvl ("No pools matched TVL > " ++ format_tvl (some minTvl))) ∧
    get_yield_data 10000000000 [] none
        (some [⟨"c1", "p1", "usdc", "usdc", true, some 5000000000, some 3⟩]) =
      .warningTvl ("No pools matched TVL > " ++ format_tvl (some 10000000000)) := by
  have hmem : ∀ (minTvl : ℚ) (l : List PoolRecord) (r : PoolRecord),
      r ∈ tvlFilter minTvl l ↔ r ∈ l ∧ r.tvlUsd.getD 0 > minTvl := by
    intro minTvl l r
    simp [tvlFilter, List.mem_filter]
  have hsent : ∀ (minTvl : ℚ) (targets : List String)
      (meta : Option (List MetaRecord)) (base : List PoolRecord),
      base ≠ [] → relevanceFilter targets base ≠ [] →
      tvlFilter minTvl (relevanceFilter targets base) = [] →
      get_yield_data minTvl targets meta (some base) =
        .warningTvl ("No pools matched TVL > " ++ format_tvl (some minTvl)) := by
    intro minTvl targets meta base h1 h2 h3
    simp [get_yield_data, List.isEmpty_iff, h1, h2, h3]
  refine ⟨hmem, hsent, hsent _ _ _ _ (by decide) (by decide) (by decide)⟩

theorem C1_threshold_filter_witness :
    ((⟨"c1", "p1", "usdc", "usdc", true, some 15000000, none⟩ : PoolRecord) ∈
      tvlFilter 10000000
        [⟨"c1", "p1", "usdc", "usdc", true, some 15000000, none⟩]) ∧
    tvlFilter 10000000
        [(⟨"c1", "p1", "usdc", "usdc", true, some 5000000, none⟩ : PoolRecord)] = [] := by
  constructor
  · exact (C1_threshold_filter.1 10000000 _ _).mpr ⟨by decide, by norm_num⟩
  · have h := C1_threshold_filter.1 10000000
      [(⟨"c1", "p1", "usdc", "usdc", true, some 5000000, none⟩ : PoolRecord)]
    decide

/-- C6: the relevance filter keeps a record iff its stablecoin flag is true
or its join symbol is in the target set; when no record passes, the
pipeline returns the NoMatchBase sentinel; on the two-record scenario with
an empty target set only the usdc row survives. -/
theorem C6_relevance_filter :
    (∀ (targets : List String) (l : List PoolRecord) (r : PoolRecord),
      r ∈ relevanceFilter targets l ↔
        r ∈ l ∧ (r.stablecoin = true ∨ r.join_symbol ∈ targets)) ∧
    (∀ (minTvl : ℚ) (targets : List String) (meta : Option (List MetaRecord))
        (base : List PoolRecord),
      base ≠ [] → relevanceFilter targets base = [] →
      get_yield_data minTvl targets meta (some base) =
        .warning "No pools matched base criteria") ∧
    relevanceFilter []
        [(⟨"c1", "p1", "usdc", "usdc", true, some 5000000000, none⟩ : PoolRecord),
         ⟨"c2", "p2", "xyz", "xyz", false, some 5000000000, none⟩] =
      [⟨"c1", "p1", "usdc", "usdc", true, some 5000000000, none⟩] := by
  refine ⟨?_, ?_, by decide⟩
  · intro targets l r
    simp [relevanceFilter, List.mem_filter]
  · intro minTvl targets meta base h1 h2
    simp [get_yield_data, List.isEmpty_iff, h1, h2]

theorem C6_relevance_filter_witness :
    ((⟨"c1", "p1", "usdc", "usdc", true, some 5000000000, none⟩ : PoolRecord) ∈
      relevanceFilter []
        [⟨"c1", "p1", "usdc", "usdc", true, some 5000000000, none⟩]) ∧
    get_yield_data 10000000 [] none
        (some [⟨"c2", "p2", "xyz", "xyz", false, some 5000000000, none⟩]) =
      .warning "No pools matched base criteria" := by
  constructor
  · exact (C6_relevance_filter.1 [] _ _).mpr ⟨by decide, Or.inl (by decide)⟩
  · exact C6_relevance_filter.2.1 10000000 [] none _ (by decide) (by decide)

theorem mergeMeta_map_pool (meta : Option (List MetaRecord))
    (pools : List PoolRecord) :
    (mergeMeta meta pools).map (fun m => m.pool) = pools := by
  cases meta with
  | none => simp [mergeMeta, Function.comp_def]
  | some ms =>
    rw [mergeMeta]
    split <;> simp [Function.comp_def]

/-- C5: the left join never drops or duplicates pool rows: the merged table
has one row per filtered pool row; deduplicating the metadata by join
symbol keeps the first occurrence, so the join lookup agrees with a lookup
in the raw metadata; and a successful Pool Yields table has exactly as many
rows as survive the relevance and threshold filters. -/
theorem C5_join_preserves_rows :
    (∀ (meta : Option (List MetaRecord)) (pools : List PoolRecord),
      (mergeMeta meta pools).length = pools.length) ∧
    (∀ (ms : List MetaRecord) (js : String),
      (dedupByJoinSymbol ms).find? (fun m => m.join_symbol = js) =
        ms.find? (fun m => m.join_symbol = js)) ∧
    (∀ (minTvl : ℚ) (targets : List String) (meta : Option (List MetaRecord))
        (base : List PoolRecord) (rows : List DisplayRow),
      get_yield_data minTvl targets meta (some base) = .table rows →
      rows.length = (tvlFilter minTvl (relevanceFilter targets base)).length) := by
  refine ⟨mergeMeta_length, dedup_find?_eq, ?_⟩
  intro minTvl targets meta base rows h
  simp only [get_yield_data] at h
  split_ifs at h with hb hr ht
  simp only [PipelineResult.table.injEq] at h
  rw [← h]
  simp [mergeMeta_length]

theorem C5_join_preserves_rows_witness :
    get_yield_data 10000000 [] none
        (some [⟨"c1", "p1", "usdc", "usdc", true, some 15000000, some 2⟩]) =
      .table [toDisplayRow ⟨⟨"c1", "p1", "usdc", "usdc", true, some 15000000, some 2⟩, none⟩] ∧
    (1 : ℕ) = (tvlFilter 10000000 (relevanceFilter []
        [⟨"c1", "p1", "usdc", "usdc", true, some 15000000, some 2⟩])).length := by
  have htab : get_yield_data 10000000 [] none
      (some [⟨"c1", "p1", "usdc", "usdc", true, some 15000000, some 2⟩]) =
      .table [toDisplayRow ⟨⟨"c1", "p1", "usdc", "usdc", true, some 15000000, some 2⟩, none⟩] := by
    simp [get_yield_data, relevanceFilter, tvlFilter, mergeMeta, List.filter]
    norm_num
  refine ⟨htab, ?_⟩
  have := C5_join_preserves_rows.2.2 10000000 [] none
    [⟨"c1", "p1", "usdc", "usdc", true, some 15000000, some 2⟩] _ htab
  simpa using this

theorem curated_table_sorted {manual : List ManualEntry} {rows : List CuratedRow}
    (h : get_stablecoin_yields_data manual = .table rows) :
    rows.Pairwise (fun a b =>
      apyLe (parse_yield a.yieldStr) (parse_yield b.yieldStr) = true) := by
  simp only [get_stablecoin_yields_data] at h
  split_ifs at h with he
  simp only [PipelineResult.table.injEq] at h
  rw [← h]
  have hsorted := @List.sorted_mergeSort CuratedRow
    (fun a b : CuratedRow =>
      apyLe (parse_yield a.yieldStr) (parse_yield b.yieldStr))
    (fun a b c hab hbc => apyLe_trans _ _ _ hab hbc)
    (fun a b => apyLe_total _ _)
    (manual.map toCuratedRow)
  refine List.Pairwise.map _ ?_ hsorted
  intro a b hab
  simpa [cleanCuratedRow, parse_yield_cleanNAStr] using hab

/-- C2 counterexample: the Pool Yield Analytics assembler applies no sort:
with two relevant rows whose APYs arrive in ascending order 1, 5 the output
table keeps that order, which is not descending. -/
theorem C2_counterexample :
    get_analytics_data 10000000 [] none
        (some [⟨"c1", "p1", "usdc", "usdc", true, some 20000000, some 1⟩,
               ⟨"c2", "p2", "usdt", "usdt", true, some 20000000, some 5⟩]) =
      .table [toAnalyticsRow ⟨⟨"c1", "p1", "usdc", "usdc", true, some 20000000, some 1⟩, none⟩,
              toAnalyticsRow ⟨⟨"c2", "p2", "usdt", "usdt", true, some 20000000, some 5⟩, none⟩] ∧
    ¬ List.Pairwise (fun a b : AnalyticsRow => apyLe a.apy b.apy = true)
        [toAnalyticsRow ⟨⟨"c1", "p1", "usdc", "usdc", true, some 20000000, some 1⟩, none⟩,
         toAnalyticsRow ⟨⟨"c2", "p2", "usdt", "usdt", true, some 20000000, some 5⟩, none⟩] := by
  constructor
  · norm_num [get_analytics_data, relevanceFilter, tvlFilter, mergeMeta, List.filter]
  · intro hp
    have h12 := List.rel_of_pairwise_cons hp (List.mem_singleton.mpr rfl)
    simp only [toAnalyticsRow, apyLe, decide_eq_true_eq] at h12
    linarith

/-- C2 (amended): the Pool Yields display table, the curated Stablecoin
Yields table and the curated Stablecoin Analytics table are sorted by their
yield descending with nulls last; the Pool Yield Analytics assembler does
not sort, it preserves the relative input order of the surviving rows. -/
theorem C2_view_sorting :
    (∀ (minTvl : ℚ) (targets : List String) (meta : Option (List MetaRecord))
        (base : List PoolRecord) (rows : List DisplayRow),
      get_yield_data minTvl targets meta (some base) = .table rows →
      rows.Pairwise (fun a b =>
        apyLe (parse_yield a.apyStr) (parse_yield b.apyStr) = true)) ∧
    (∀ (manual : List ManualEntry) (rows : List CuratedRow),
      get_stablecoin_yields_data manual = .table rows →
      rows.Pairwise (fun a b =>
        apyLe (parse_yield a.yieldStr) (parse_yield b.yieldStr) = true)) ∧
    (∀ (manual : List ManualEntry) (rows : List EnhancedRow),
      get_enhanced_analytics_data manual = .table rows →
      rows.Pairwise (fun a b => apyLe a.apy b.apy = true)) ∧
    (∀ (minTvl : ℚ) (targets : List String) (meta : Option (List MetaRecord))
        (base : List PoolRecord) (rows : List AnalyticsRow),
      get_analytics_data minTvl targets meta (some base) = .table rows →
      (rows.map (fun r => r.apy)).Sublist (base.map (fun p => p.apy))) := by
  refine ⟨?_, fun manual rows h => curated_table_sorted h, ?_, ?_⟩
  · intro minTvl targets meta base rows h
    simp only [get_yield_data] at h
    split_ifs at h with hb hr ht
    simp only [PipelineResult.table.injEq] at h
    rw [← h]
    have hsorted := @List.sorted_mergeSort MergedRow
      (fun a b : MergedRow => apyLe a.pool.apy b.pool.apy)
      (fun a b c hab hbc => apyLe_trans _ _ _ hab hbc)
      (fun a b => apyLe_total _ _)
      (mergeMeta meta (tvlFilter minTvl (relevanceFilter targets base)))
    refine List.Pairwise.map _ ?_ hsorted
    intro a b hab
    show apyLe (parse_yield (toDisplayRow a).apyStr)
      (parse_yield (toDisplayRow b).apyStr) = true
    simp only [toDisplayRow]
    rw [parse_yield_format_apy_map, parse_yield_format_apy_map]
    exact apyLe_map_roundTo hab
  · intro manual rows h
    rcases hcur : get_stablecoin_yields_data manual with m | m | m | crows
    · simp [get_enhanced_analytics_data, hcur] at h
    · simp [get_enhanced_analytics_data, hcur] at h
    · simp [get_enhanced_analytics_data, hcur] at h
    · simp only [get_enhanced_analytics_data, hcur] at h
      split_ifs at h with he
      simp only [PipelineResult.table.injEq] at h
      rw [← h]
      have hc := curated_table_sorted hcur
      have h1 : (crows.map toEnhancedRow).Pairwise
          (fun a b : EnhancedRow => apyLe a.apy b.apy = true) := by
        refine List.Pairwise.map _ ?_ hc
        intro a b hab
        simpa [toEnhancedRow] using hab
      have h2 := List.Pairwise.filter
        (fun r : EnhancedRow => r.apy.isSome && r.tvlUsd.isSome) h1
      refine List.Pairwise.map _ ?_ h2
      intro a b hab
      simpa [cleanEnhancedRow] using hab
  · intro minTvl targets meta base rows h
    simp only [get_analytics_data] at h
    split_ifs at h with hb hr ht
    simp only [PipelineResult.table.injEq] at h
    rw [← h, List.map_map]
    have hcomp : ((fun r : AnalyticsRow => r.apy) ∘ toAnalyticsRow) =
        fun m : MergedRow => m.pool.apy := by
      funext m
      simp [toAnalyticsRow]
    rw [hcomp]
    have s2 : (mergeMeta meta (tvlFilter minTvl (relevanceFilter targets base))).map
        (fun m => m.pool.apy) =
        (tvlFilter minTvl (relevanceFilter targets base)).map (fun p => p.apy) := by
      have hsplit : (fun m : MergedRow => m.pool.apy) =
          ((fun p : PoolRecord => p.apy) ∘ (fun m : MergedRow => m.pool)) := rfl
      rw [hsplit, ← List.map_map, mergeMeta_map_pool]
    have s1 := (@List.filter_sublist MergedRow
      (fun m : MergedRow => m.pool.apy.isSome && m.pool.tvlUsd.isSome)
      (mergeMeta meta (tvlFilter minTvl (relevanceFilter targets base)))).map
      (fun m : MergedRow => m.pool.apy)
    rw [s2] at s1
    have s3 : ((tvlFilter minTvl (relevanceFilter targets base)).map
        (fun p => p.apy)).Sublist ((relevanceFilter targets base).map (fun p => p.apy)) := by
      rw [tvlFilter]
      exact (List.filter_sublist _).map _
    have s4 : ((relevanceFilter targets base).map (fun p => p.apy)).Sublist
        (base.map (fun p => p.apy)) := by
      rw [relevanceFilter]
      exact (List.filter_sublist _).map _
    exact s1.trans (s3.trans s4)

theorem C2_view_sorting_witness :
    List.Pairwise (fun a b : DisplayRow =>
      apyLe (parse_yield a.apyStr) (parse_yield b.apyStr) = true)
      [toDisplayRow ⟨⟨"c1", "p1", "usdc", "usdc", true, some 15000000, some 2⟩, none⟩] ∧
    List.Pairwise (fun a b : CuratedRow =>
      apyLe (parse_yield a.yieldStr) (parse_yield b.yieldStr) = true)
      [cleanCuratedRow (toCuratedRow
        ⟨"susde", some "Ethena", some "SUSDE", none, some "$4B",
         some "perps funding", some "43%"⟩)] ∧
    List.Pairwise (fun a b : EnhancedRow => apyLe a.apy b.apy = true)
      ([] : List EnhancedRow) ∧
    (([toAnalyticsRow ⟨⟨"c1", "p1", "usdc", "usdc", true, some 20000000, some 1⟩, none⟩,
       toAnalyticsRow ⟨⟨"c2", "p2", "usdt", "usdt", true, some 20000000, some 5⟩, none⟩].map
        (fun r => r.apy)).Sublist
      ([(⟨"c1", "p1", "usdc", "usdc", true, some 20000000, some 1⟩ : PoolRecord),
        ⟨"c2", "p2", "usdt", "usdt", true, some 20000000, some 5⟩].map
        (fun p => p.apy))) := by
  have h1 : get_yield_data 10000000 [] none
      (some [⟨"c1", "p1", "usdc", "usdc", true, some 15000000, some 2⟩]) =
      .table [toDisplayRow ⟨⟨"c1", "p1", "usdc", "usdc", true, some 15000000, some 2⟩, none⟩] := by
    norm_num [get_yield_data, relevanceFilter, tvlFilter, mergeMeta, List.filter]
  have h2 : get_stablecoin_yields_data
      [⟨"susde", some "Ethena", some "SUSDE", none, some "$4B",
        some "perps funding", some "43%"⟩] =
      .table [cleanCuratedRow (toCuratedRow
        ⟨"susde", some "Ethena", some "SUSDE", none, some "$4B",
         some "perps funding", some "43%"⟩)] := by
    simp [get_stablecoin_yields_data]
  have h3 : get_enhanced_analytics_data
      [⟨"susde", some "Ethena", some "SUSDE", none, some "$4B",
        some "perps funding", some "43%"⟩] = .table [] := by
    simp [get_enhanced_analytics_data, get_stablecoin_yields_data, toCuratedRow,
      cleanCuratedRow, cleanNAStr, toEnhancedRow, parse_yield]
  have h4 : get_analytics_data 10000000 [] none
      (some [⟨"c1", "p1", "usdc", "usdc", true, some 20000000, some 1⟩,
             ⟨"c2", "p2", "usdt", "usdt", true, some 20000000, some 5⟩]) =
      .table [toAnalyticsRow ⟨⟨"c1", "p1", "usdc", "usdc", true, some 20000000, some 1⟩, none⟩,
              toAnalyticsRow ⟨⟨"c2", "p2", "usdt", "usdt", true, some 20000000, some 5⟩, none⟩] := by
    norm_num [get_analytics_data, relevanceFilter, tvlFilter, mergeMeta, List.filter]
  exact ⟨C2_view_sorting.1 10000000 [] none _ _ h1,
    C2_view_sorting.2.1 _ _ h2,
    C2_view_sorting.2.2.1 _ _ h3,
    C2_view_sorting.2.2.2 10000000 [] none _ _ h4⟩

theorem fetchLoopAux_all_fail {α : Type} {outcomes : ℕ → Attempt α}
    {retries : ℕ} (h : ∀ i, i < retries → outcomes i = .failure) :
    ∀ (k attempt sleeps : ℕ), retries - attempt = k → attempt ≤ retries →
    fetchLoopAux outcomes retries attempt sleeps =
      (none, sleeps + (retries - attempt - 1), retries) := by
  intro k
  induction k with
  | zero =>
    intro attempt sleeps hk ha
    have heq : attempt = retries := by omega
    rw [fetchLoopAux, dif_neg (by omega)]
    have e1 : sleeps + (retries - attempt - 1) = sleeps := by omega
    rw [e1, heq]
  | succ k ih =>
    intro attempt sleeps hk ha
    have hlt : attempt < retries := by omega
    rw [fetchLoopAux, dif_pos hlt]
    simp only [h attempt hlt]
    by_cases h2 : attempt + 1 < retries
    · rw [if_pos h2, ih (attempt + 1) (sleeps + 1) (by omega) (by omega)]
      have e1 : sleeps + 1 + (retries - (attempt + 1) - 1) =
          sleeps + (retries - attempt - 1) := by omega
      rw [e1]
    · rw [if_neg h2]
      have e2 : attempt + 1 = retries := by omega
      have e3 : sleeps + (retries - attempt - 1) = sleeps := by omega
      rw [e3, e2]

/-- C8: a fetch configured with 3 attempts whose first two attempts fail
and whose third succeeds returns the payload after exactly two delays; for
every configuration whose attempts all fail, the loop exhausts the
attempts (one fewer sleep than attempts) and the fetch boundary returns
the None outcome — the loop catches every exception class, so this path
never raises. -/
theorem C8_fetch_retry :
    (∀ (α : Type) (outcomes : ℕ → Attempt α) (p : α),
      outcomes 0 = .failure → outcomes 1 = .failure →
      outcomes 2 = .success p →
      fetchLoop outcomes 3 = (some p, 2, 3)) ∧
    (∀ (α : Type) (outcomes : ℕ → Attempt α) (retries : ℕ),
      (∀ i, i < retries → outcomes i = .failure) →
      fetchLoop outcomes retries = (none, retries - 1, retries)) ∧
    (∀ (α : Type) (domain : String) (now : ℤ) (store store2 : RateStore)
        (outcomes : ℕ → Attempt α) (retries : ℕ),
      rate_limit_request domain now store = .ok store2 →
      (∀ i, i < retries → outcomes i = .failure) →
      fetch_data_with_retries domain now store outcomes retries =
        (.failed, store2, retries)) := by
  have hfail : ∀ (α : Type) (outcomes : ℕ → Attempt α) (retries : ℕ),
      (∀ i, i < retries → outcomes i = .failure) →
      fetchLoop outcomes retries = (none, retries - 1, retries) := by
    intro α outcomes retries h
    rw [fetchLoop, fetchLoopAux_all_fail h (retries - 0) 0 0 rfl (by omega)]
    have e1 : 0 + (retries - 0 - 1) = retries - 1 := by omega
    rw [e1]
  refine ⟨?_, hfail, ?_⟩
  · intro α outcomes p h0 h1 h2
    simp [fetchLoop, fetchLoopAux, h0, h1, h2]
  · intro α domain now store store2 outcomes retries hok hfl
    simp only [fetch_data_with_retries, hok, hfail α outcomes retries hfl]

theorem C8_fetch_retry_witness :
    fetchLoop (fun i => if i < 2 then Attempt.failure else Attempt.success (42 : ℕ)) 3 =
      (some 42, 2, 3) ∧
    fetch_data_with_retries "api.example" 0 []
        (fun _ => (Attempt.failure : Attempt ℕ)) 3 =
      (.failed, [("api.example", ⟨0, 1, 0⟩)], 3) := by
  constructor
  · exact C8_fetch_retry.1 ℕ _ 42 (by norm_num) (by norm_num) (by norm_num)
  · exact C8_fetch_retry.2.2 ℕ "api.example" 0 [] _ _ 3 rfl (fun i _ => rfl)

/-- C9: with the per-domain count at the ceiling inside the current window,
`rate_limit_request` raises the distinct RateLimitExceededError and
`fetch_data_with_retries` makes no network attempt and leaves the store
unchanged; but because `api.py` never imports `SecurityError`, evaluating
the `except SecurityError` clause raises NameError, which escapes the fetch
boundary instead of the documented caught-and-handled outcome. -/
theorem C9_rate_limited_path :
    (∀ (domain : String) (now : ℤ) (store : RateStore) (dl : DomainLimits),
      domain ≠ "" → storeLookup store domain = some dl →
      ¬(now - dl.window_start > RATE_LIMIT_WINDOW_SECONDS) →
      dl.count ≥ RATE_LIMIT_REQUESTS_PER_MINUTE →
      rate_limit_request domain now store = .error .rateLimited) ∧
    (∀ (α : Type) (domain : String) (now : ℤ) (store : RateStore)
        (outcomes : ℕ → Attempt α) (retries : ℕ) (e : SecErr),
      rate_limit_request domain now store = .error e →
      fetch_data_with_retries domain now store outcomes retries =
        (.nameError, store, 0)) := by
  constructor
  · intro domain now store dl hdom hlook hwin hcount
    simp [rate_limit_request, hdom, hlook, hwin, hcount]
  · intro α domain now store outcomes retries e herr
    simp only [fetch_data_with_retries, herr]

theorem C9_rate_limited_path_witness :
    rate_limit_request "yields.llama.fi" 1000
        [("yields.llama.fi", ⟨995, 60, 990⟩)] = .error .rateLimited ∧
    fetch_data_with_retries "yields.llama.fi" 1000
        [("yields.llama.fi", ⟨995, 60, 990⟩)]
        (fun _ => (Attempt.failure : Attempt ℕ)) 3 =
      (.nameError, [("yields.llama.fi", ⟨995, 60, 990⟩)], 0) := by
  have h1 := C9_rate_limited_path.1 "yields.llama.fi" 1000
    [("yields.llama.fi", ⟨995, 60, 990⟩)] ⟨995, 60, 990⟩
    (by decide) (by decide) (by decide) (by decide)
  exact ⟨h1, C9_rate_limited_path.2 ℕ _ _ _ _ 3 .rateLimited h1⟩

/-- C10: every fetch invocation consumes the per-domain rate budget exactly
once, before the first attempt: a successful check increments the count by
exactly one (initialising absent entries at zero), the retry loop never
touches the store, and the resulting store is independent of the attempt
outcomes and of the retry count. -/
theorem C10_budget_once :
    (∀ (domain : String) (now : ℤ) (store : RateStore),
      domain ≠ "" → storeLookup store domain = none →
      rate_limit_request domain now store =
        .ok (storeSet store domain ⟨now, 1, now⟩)) ∧
    (∀ (domain : String) (now : ℤ) (store : RateStore) (dl : DomainLimits),
      domain ≠ "" → storeLookup store domain = some dl →
      ¬(now - dl.window_start > RATE_LIMIT_WINDOW_SECONDS) →
      dl.count < RATE_LIMIT_REQUESTS_PER_MINUTE →
      rate_limit_request domain now store =
        .ok (storeSet store domain ⟨now, dl.count + 1, dl.window_start⟩)) ∧
    (∀ (α β : Type) (domain : String) (now : ℤ) (store : RateStore)
        (o1 : ℕ → Attempt α) (o2 : ℕ → Attempt β) (r1 r2 : ℕ),
      (fetch_data_with_retries domain now store o1 r1).2.1 =
        (fetch_data_with_retries domain now store o2 r2).2.1) ∧
    (∀ (α : Type) (domain : String) (now : ℤ) (store store2 : RateStore)
        (outcomes : ℕ → Attempt α) (retries : ℕ),
      rate_limit_request domain now store = .ok store2 →
      (fetch_data_with_retries domain now store outcomes retries).2.1 = store2) := by
  have hstore : ∀ (α : Type) (domain : String) (now : ℤ)
      (store store2 : RateStore) (outcomes : ℕ → Attempt α) (retries : ℕ),
      rate_limit_request domain now store = .ok store2 →
      (fetch_data_with_retries domain now store outcomes retries).2.1 = store2 := by
    intro α domain now store store2 outcomes retries hok
    simp only [fetch_data_with_retries, hok]
    rcases hl : fetchLoop outcomes retries with ⟨p, sl, att⟩
    cases p <;> simp
  refine ⟨?_, ?_, ?_, hstore⟩
  · intro domain now store hdom hlook
    simp [rate_limit_request, hdom, hlook, RATE_LIMIT_REQUESTS_PER_MINUTE]
  · intro domain now store dl hdom hlook hwin hcount
    simp [rate_limit_request, hdom, hlook, hwin, Nat.not_le.mpr hcount]
  · intro α β domain now store o1 o2 r1 r2
    rcases hr : rate_limit_request domain now store with e | s2
    · simp only [fetch_data_with_retries, hr]
    · rw [hstore α domain now store s2 o1 r1 hr, hstore β domain now store s2 o2 r2 hr]

theorem C10_budget_once_witness :
    rate_limit_request "api.example" 5 [] = .ok [("api.example", ⟨5, 1, 5⟩)] ∧
    (fetch_data_with_retries "api.example" 5 []
        (fun _ => (Attempt.failure : Attempt ℕ)) 2).2.1 =
      [("api.example", ⟨5, 1, 5⟩)] := by
  have h1 := C10_budget_once.1 "api.example" 5 [] (by decide) (by decide)
  exact ⟨h1, C10_budget_once.2.2.2 ℕ "api.example" 5 [] _ _ 2 h1⟩

theorem C7_classifier_closed_set_witness :
    categorize_stablecoin_by_strategy "T-bills" ∈
      (["RWA/Treasury-backed", "Delta Neutral/Arb", "Restaking",
        "Protocol Native Yield", "Lending/Borrowing", "Index/Diversified",
        "External DeFi Farming", "Trading Strategy", "LP Fees",
        "Options/Structured Product", "Unknown/Other"] : List String) ∧
    categorize_stablecoin_by_strategy "T-bills" ≠ "" :=
  ⟨C7_classifier_closed_set.1 "T-bills", C7_classifier_closed_set.2.1 "T-bills"⟩
